import Mathlib

/-!
# A shallow embedding of libFuzzer's mutation engine (FuzzerMutate.cpp)

Byte buffers are `List Nat` (each stored byte is reduced mod 256 where the C++
writes through a `uint8_t`). `size_t` quantities are `Nat`; `uint64_t` arithmetic
is done with explicit `% 2^64`. The deterministic random source is an explicit
stream of naturals together with a cursor; `Rand(n)` is modelled as `stream idx % n`
and `Rand.RandBool()` as the parity of the next stream value, so every draw
advances the cursor exactly once, mirroring the single `Rand()` call each makes.
-/


namespace FuzzerMutate

/-- The random source: a stream of raw draws plus a cursor.  `fuzzer::Random`
produces `Rand() % n` for `(*this)(n)`; we keep the raw draws abstract. -/
structure Rng where
  stream : Nat → Nat
  idx : Nat

/-- Embeds `Random::operator()(n)`: a value in `[0, n)` (and `0` when `n = 0`). -/
def Rng.next (r : Rng) (n : Nat) : Nat × Rng :=
  (if n = 0 then 0 else r.stream r.idx % n, ⟨r.stream, r.idx + 1⟩)

/-- Embeds `Random::RandBool()`. -/
def Rng.nextBool (r : Rng) : Bool × Rng :=
  (r.stream r.idx % 2 == 1, ⟨r.stream, r.idx + 1⟩)

/-- A dictionary entry: a word, an optional position hint, a use counter and a
success counter.  `DictionaryEntry` lives in `FuzzerDictionary.h`, which is not
among the sources; the fields are modelled from the spec ("a Word plus an
optional position hint, a use counter, and a success counter"), with the
`SIZE_MAX` sentinel for "no position hint" rendered as `none`. -/
structure DictionaryEntry where
  word : List Nat
  positionHint : Option Nat
  useCount : Nat
  successCount : Nat
deriving Repr, DecidableEq, Inhabited

/-- Embeds `Dictionary::ContainsWord` (a linear scan comparing entry words). -/
def ContainsWord (d : List DictionaryEntry) (w : List Nat) : Bool :=
  d.any fun e => e.word == w

/-- Which of the three dictionaries a `DictionaryEntry*` points into. -/
inductive DictId where
  | manual
  | tempAuto
  | persAuto
deriving Repr, DecidableEq

/-- A `DictionaryEntry*` stored in `CurrentDictionaryEntrySequence`: the
dictionary it points into and the index of the entry there. -/
structure EntryRef where
  dict : DictId
  idx : Nat
deriving Repr, DecidableEq

/-- The mutable state carried by a `MutationDispatcher`. -/
structure MD where
  manualDictionary : List DictionaryEntry
  tempAutoDictionary : List DictionaryEntry
  persistentAutoDictionary : List DictionaryEntry
  currentMutatorSequence : List String
  currentDictionaryEntrySequence : List EntryRef
  mutateInPlaceHere : List Nat
  corpus : Option (List (List Nat))
  onlyASCII : Bool
  rng : Rng

def dictOf (st : MD) : DictId → List DictionaryEntry
  | .manual => st.manualDictionary
  | .tempAuto => st.tempAutoDictionary
  | .persAuto => st.persistentAutoDictionary

def setDict (st : MD) (d : DictId) (l : List DictionaryEntry) : MD :=
  match d with
  | .manual => { st with manualDictionary := l }
  | .tempAuto => { st with tempAutoDictionary := l }
  | .persAuto => { st with persistentAutoDictionary := l }

/-- Replace the element at index `i` (no-op when out of range). -/
def modifyIdx (l : List α) (i : Nat) (f : α → α) : List α :=
  match l, i with
  | [], _ => []
  | x :: xs, 0 => f x :: xs
  | x :: xs, i + 1 => x :: modifyIdx xs i f

/-- Embeds `std::vector::resize(n)`: truncate or extend with zero-initialised bytes. -/
def resizeList (l : List Nat) (n : Nat) : List Nat :=
  l.take n ++ List.replicate (n - l.length) 0

/-- The character table of `RandCh`:
the 30 characters of the `Special` string literal as byte values, the embedded
final NUL byte included (`Special[Rand(sizeof(Special)-1)]` indexes all of them;
the implicit terminator is never picked). -/
def specialChars : List Nat :=
  [33, 42, 39, 40, 41, 59, 58, 64, 38, 61, 43, 36, 44, 47, 63, 37,
   35, 91, 93, 48, 49, 50, 65, 122, 45, 96, 126, 46, 255, 0]

/-- Embeds `RandCh(Rand)`. -/
def randCh (r : Rng) : Nat × Rng :=
  let (b, r1) := r.nextBool
  if b then r1.next 256
  else
    let (i, r2) := r1.next 30
    (specialChars.getD i 0, r2)

/-! ## The built-in mutators

Each mutator is `MD → List Nat → Nat → Nat × List Nat × MD`: given the
dispatcher state, the buffer contents `Data[0,Size)` and `MaxSize`, it returns
the new size (`0` on non-applicability), the buffer contents after the call and
the new dispatcher state.  Every mutator of `FuzzerMutate.cpp` returns on all
its failure paths before modifying the buffer, which the embedding mirrors by
returning the input list unchanged there. -/
/-- Embeds `MutationDispatcher::Mutate_EraseBytes`. -/
def Mutate_EraseBytes (st : MD) (data : List Nat) (_maxSize : Nat) :
    Nat × List Nat × MD :=
  let size := data.length
  if size = 1 then (0, data, st)
  else
    let (n0, r1) := st.rng.next (size / 2)
    let N := n0 + 1
    let (idx, r2) := r1.next (size - N + 1)
    (size - N, data.take idx ++ data.drop (idx + N), { st with rng := r2 })

/-- Embeds `MutationDispatcher::Mutate_InsertByte`. -/
def Mutate_InsertByte (st : MD) (data : List Nat) (maxSize : Nat) :
    Nat × List Nat × MD :=
  let size := data.length
  if size = maxSize then (0, data, st)
  else
    let (idx, r1) := st.rng.next (size + 1)
    let (c, r2) := randCh r1
    (size + 1, data.take idx ++ c :: data.drop idx, { st with rng := r2 })

/-- Embeds `MutationDispatcher::Mutate_InsertRepeatedBytes`.
`kMinBytesToInsert = 3`; the guard is `Size + kMinBytesToInsert >= MaxSize`. -/
def Mutate_InsertRepeatedBytes (st : MD) (data : List Nat) (maxSize : Nat) :
    Nat × List Nat × MD :=
  let size := data.length
  if maxSize ≤ size + 3 then (0, data, st)
  else
    let maxBytesToInsert := min (maxSize - size) 128
    let (n0, r1) := st.rng.next (maxBytesToInsert - 3 + 1)
    let N := n0 + 3
    let (idx, r2) := r1.next (size + 1)
    let (b1, r3) := r2.nextBool
    let (byte, r4) :=
      if b1 then r3.next 256
      else
        let (b2, r3') := r3.nextBool
        ((if b2 then 0 else 255), r3')
    (size + N, data.take idx ++ List.replicate N byte ++ data.drop idx,
     { st with rng := r4 })

/-- Embeds `MutationDispatcher::Mutate_ChangeByte`. -/
def Mutate_ChangeByte (st : MD) (data : List Nat) (_maxSize : Nat) :
    Nat × List Nat × MD :=
  let (idx, r1) := st.rng.next data.length
  let (c, r2) := randCh r1
  (data.length, data.set idx c, { st with rng := r2 })

/-- Embeds `MutationDispatcher::Mutate_ChangeBit` (`Data[Idx] ^= 1 << Rand(8)`,
stored through a `uint8_t`). -/
def Mutate_ChangeBit (st : MD) (data : List Nat) (_maxSize : Nat) :
    Nat × List Nat × MD :=
  let (idx, r1) := st.rng.next data.length
  let (bit, r2) := r1.next 8
  (data.length, data.set idx (Nat.xor (data.getD idx 0) (2 ^ bit) % 256),
   { st with rng := r2 })

/-- One pass of `std::random_shuffle(first, last, g)` in its classic form:
`for i in [1, n) : swap(a[i], a[g(i+1)])`. -/
def swapIdx (l : List Nat) (i j : Nat) : List Nat :=
  (l.set i (l.getD j 0)).set j (l.getD i 0)

def shuffleGo : Nat → Nat → List Nat → Rng → List Nat × Rng
  | 0, _, l, r => (l, r)
  | fuel + 1, i, l, r =>
    if i < l.length then
      let (j, r1) := r.next (i + 1)
      shuffleGo fuel (i + 1) (swapIdx l i j) r1
    else (l, r)

def randomShuffle (l : List Nat) (r : Rng) : List Nat × Rng :=
  shuffleGo l.length 1 l r

/-- Embeds `MutationDispatcher::Mutate_ShuffleBytes`. -/
def Mutate_ShuffleBytes (st : MD) (data : List Nat) (_maxSize : Nat) :
    Nat × List Nat × MD :=
  let size := data.length
  let (a0, r1) := st.rng.next (min size 8)
  let shuffleAmount := a0 + 1
  let (shuffleStart, r2) := r1.next (size - shuffleAmount)
  let seg := (data.drop shuffleStart).take shuffleAmount
  let (seg', r3) := randomShuffle seg r2
  (size, data.take shuffleStart ++ seg' ++ data.drop (shuffleStart + shuffleAmount),
   { st with rng := r3 })

/-- Embeds `isdigit` on a byte value. -/
def isDigit (b : Nat) : Bool := 48 ≤ b && b ≤ 57

/-- Embeds `while (B < Size && !isdigit(Data[B])) B++;` -/
def findDigitFrom (data : List Nat) (b : Nat) : Nat :=
  if h : b < data.length then
    if isDigit (data.getD b 0) then b else findDigitFrom data (b + 1)
  else data.length
termination_by data.length - b

/-- Embeds `while (E < Size && isdigit(Data[E])) E++;` -/
def digitRunEnd (data : List Nat) (e : Nat) : Nat :=
  if h : e < data.length then
    if isDigit (data.getD e 0) then digitRunEnd data (e + 1) else e
  else data.length
termination_by data.length - e

/-- Manual decimal accumulation over `Data[B,E)` into a `uint64_t`. -/
def parseVal (data : List Nat) (b e : Nat) : Nat :=
  ((data.drop b).take (e - b)).foldl (fun acc d => (acc * 10 + (d - 48)) % 2 ^ 64) 0

/-- The fixed-width right-aligned decimal rewrite: for `k = count-1, ..., 0`
write `val % 10 + '0'` at position `b + k` and divide `val` by 10. -/
def writeDigits : List Nat → Nat → Nat → Nat → List Nat
  | data, _, 0, _ => data
  | data, b, k + 1, val => writeDigits (data.set (b + k) (val % 10 + 48)) b k (val / 10)

/-- Embeds `MutationDispatcher::Mutate_ChangeASCIIInteger`. -/
def Mutate_ChangeASCIIInteger (st : MD) (data : List Nat) (_maxSize : Nat) :
    Nat × List Nat × MD :=
  let size := data.length
  let (b0, r1) := st.rng.next size
  let B := findDigitFrom data b0
  if B = size then (0, data, { st with rng := r1 })
  else
    let E := digitRunEnd data B
    let val := parseVal data B E
    let (c, r2) := r1.next 5
    let (val', r3) :=
      match c with
      | 0 => ((val + 1) % 2 ^ 64, r2)
      | 1 => ((val + 2 ^ 64 - 1) % 2 ^ 64, r2)
      | 2 => (val / 2, r2)
      | 3 => (val * 2 % 2 ^ 64, r2)
      | _ => r2.next (val * val % 2 ^ 64)
    (size, writeDigits data B (E - B) val', { st with rng := r3 })

/-- The `w` least significant little-endian bytes of a value. -/
def natToBytesLE : Nat → Nat → List Nat
  | 0, _ => []
  | w + 1, v => v % 256 :: natToBytesLE w (v / 256)

def bytesToNatLE (l : List Nat) : Nat :=
  l.foldr (fun b acc => acc * 256 + b % 256) 0

/-- Embeds `Bswap` on a `w`-byte unsigned value. -/
def bswapW (w v : Nat) : Nat := bytesToNatLE (natToBytesLE w v).reverse

/-- Embeds `ChangeBinaryInteger<T>` with `w = sizeof(T)`; the value is read and written
with the host's (little-endian) byte order. -/
def changeBinaryIntegerW (w : Nat) (st : MD) (data : List Nat) :
    Nat × List Nat × MD :=
  let size := data.length
  if size < w then (0, data, st)
  else
    let m := 2 ^ (8 * w)
    let (off, r1) := st.rng.next (size - w + 1)
    let val := bytesToNatLE ((data.drop off).take w)
    let (a0, r2) := r1.next 21
    let add := (a0 + m - 10) % m
    let (b1, r3) := r2.nextBool
    let val1 := if b1 then bswapW w ((bswapW w val + add) % m) else (val + add) % m
    let (neg, r4) := if a0 = 10 then (true, r3) else r3.nextBool
    let val2 := if neg then (m - val1) % m else val1
    (size, data.take off ++ natToBytesLE w val2 ++ data.drop (off + w),
     { st with rng := r4 })

/-- Embeds `MutationDispatcher::Mutate_ChangeBinaryInteger`. -/
def Mutate_ChangeBinaryInteger (st : MD) (data : List Nat) (_maxSize : Nat) :
    Nat × List Nat × MD :=
  let (c, r1) := st.rng.next 4
  let st1 := { st with rng := r1 }
  match c with
  | 3 => changeBinaryIntegerW 8 st1 data
  | 2 => changeBinaryIntegerW 4 st1 data
  | 1 => changeBinaryIntegerW 2 st1 data
  | _ => changeBinaryIntegerW 1 st1 data

/-- Embeds `MutationDispatcher::CopyPartOf`: overwrites part of `To[0,ToSize)` with a
part of `From[0,FromSize)` and returns `ToSize`. -/
def CopyPartOf (r : Rng) (fromL toL : List Nat) : Nat × List Nat × Rng :=
  let toSize := toL.length
  let fromSize := fromL.length
  let (toBeg, r1) := r.next toSize
  let (c0, r2) := r1.next (toSize - toBeg)
  let copySize := min (c0 + 1) fromSize
  let (fromBeg, r3) := r2.next (fromSize - copySize + 1)
  (toSize,
   toL.take toBeg ++ (fromL.drop fromBeg).take copySize ++ toL.drop (toBeg + copySize),
   r3)

/-- Embeds `MutationDispatcher::InsertPartOf`: inserts part of `From` into `To`,
returning the new size of `To` on success or `0` on failure.  Besides the new
contents of `To`, the embedding also returns the copied slice: in the
`To == From` case the C++ stages exactly these bytes through the scratch buffer
`MutateInPlaceHere` (after resizing it to `MaxToSize`), and the caller of the
aliased case uses this component to reproduce that side effect. -/
def InsertPartOf (r : Rng) (fromL toL : List Nat) (maxToSize : Nat) :
    Nat × List Nat × List Nat × Rng :=
  let toSize := toL.length
  let fromSize := fromL.length
  if maxToSize ≤ toSize then (0, toL, [], r)
  else
    let availableSpace := maxToSize - toSize
    let maxCopySize := min availableSpace fromSize
    let (c0, r1) := r.next maxCopySize
    let copySize := c0 + 1
    let (fromBeg, r2) := r1.next (fromSize - copySize + 1)
    let (toInsertPos, r3) := r2.next (toSize + 1)
    let slice := (fromL.drop fromBeg).take copySize
    (toSize + copySize, toL.take toInsertPos ++ slice ++ toL.drop toInsertPos,
     slice, r3)

/-- Embeds `MutationDispatcher::Mutate_CopyPart`.  The `InsertPartOf` branch is the
aliased `To == From` call, so on success the scratch buffer is resized to
`MaxSize` and its leading bytes become the staged slice. -/
def Mutate_CopyPart (st : MD) (data : List Nat) (maxSize : Nat) :
    Nat × List Nat × MD :=
  let (b, r1) := st.rng.nextBool
  if b then
    let (n, d', r2) := CopyPartOf r1 data data
    (n, d', { st with rng := r2 })
  else
    let (n, d', slice, r2) := InsertPartOf r1 data data maxSize
    if n = 0 then (0, d', { st with rng := r2 })
    else
      (n, d',
       { st with rng := r2,
                 mutateInPlaceHere :=
                   slice ++ (resizeList st.mutateInPlaceHere maxSize).drop slice.length })

/-- Modelled from the spec: the generic crossover of two units is implemented in
`FuzzerCrossOver.cpp`, which is not among the sources here.  Per the spec it is
"a generic interleaving crossover producing a blended sequence up to
`maxCapacity`", and the result "must be non-empty": the model draws a target
length in `[1, maxOutSize]` and takes that many bytes of the interleaving of the
two inputs (`blendLists` below). -/
def blendLists (d1 d2 : List Nat) : List Nat :=
  (List.zip d1 d2).foldr (fun p acc => p.1 :: p.2 :: acc)
    (if d2.length < d1.length then d1.drop d2.length else d2.drop d1.length)

/-- Modelled from the spec, as described at `blendLists`: the crossover result
is a non-empty blended sequence of length at most `maxOutSize`. -/
def CrossOver (r : Rng) (d1 d2 : List Nat) (maxOutSize : Nat) :
    Nat × List Nat × Rng :=
  let (t, r1) := r.next maxOutSize
  let blended := (blendLists d1 d2).take (t + 1)
  (blended.length, blended, r1)

/-- Embeds `MutationDispatcher::Mutate_CrossOver`.  `U` is the scratch buffer
`MutateInPlaceHere` resized to `MaxSize`; the chosen strategy writes into it and
the result is copied back into `Data`. -/
def Mutate_CrossOver (st : MD) (data : List Nat) (maxSize : Nat) :
    Nat × List Nat × MD :=
  let size := data.length
  match st.corpus with
  | none => (0, data, st)
  | some corpus =>
    if corpus.length < 2 ∨ size = 0 then (0, data, st)
    else
      let (i, r1) := st.rng.next corpus.length
      let O := corpus.getD i []
      if O.length = 0 then (0, data, { st with rng := r1 })
      else
        let U := resizeList st.mutateInPlaceHere maxSize
        let (c, r2) := r1.next 3
        if c = 0 then
          let (ns, blended, r3) := CrossOver r2 data O U.length
          let U' := blended ++ U.drop ns
          (ns, U'.take ns, { st with rng := r3, mutateInPlaceHere := U' })
        else if c = 1 then
          let (ns1, U1, _, r3) := InsertPartOf r2 O U maxSize
          if ns1 ≠ 0 then
            (ns1, U1.take ns1, { st with rng := r3, mutateInPlaceHere := U1 })
          else
            let (ns2, U2, r4) := CopyPartOf r3 O U
            (ns2, U2.take ns2, { st with rng := r4, mutateInPlaceHere := U2 })
        else
          let (ns2, U2, r4) := CopyPartOf r2 O U
          (ns2, U2.take ns2, { st with rng := r4, mutateInPlaceHere := U2 })

/-- Embeds `MutationDispatcher::AddWordFromDictionary(D, Data, Size, MaxSize)`, with
the dictionary named by `d`.  On success the use counter of the chosen entry is
incremented and a reference to it is appended to
`CurrentDictionaryEntrySequence`. -/
def AddWordFromDictionary (st : MD) (d : DictId) (data : List Nat) (maxSize : Nat) :
    Nat × List Nat × MD :=
  let D := dictOf st d
  if D.length = 0 then (0, data, st)
  else
    let size := data.length
    let (i, r1) := st.rng.next D.length
    let DE := D.getD i default
    let W := DE.word
    let (useHint, hint, r2) :=
      match DE.positionHint with
      | some h =>
        if h + W.length < size then
          let (b, r') := r1.nextBool
          (b, h, r')
        else (false, h, r1)
      | none => (false, 0, r1)
    let (bIns, r3) := r2.nextBool
    let success := fun (newSize : Nat) (data' : List Nat) (r' : Rng) =>
      let st' := setDict st d (modifyIdx D i fun e => { e with useCount := e.useCount + 1 })
      (newSize, data',
       { st' with rng := r',
                  currentDictionaryEntrySequence :=
                    st.currentDictionaryEntrySequence ++ [⟨d, i⟩] })
    if bIns then
      if maxSize < size + W.length then (0, data, { st with rng := r3 })
      else
        let (idx, r4) := if useHint then (hint, r3) else r3.next (size + 1)
        success (size + W.length) (data.take idx ++ W ++ data.drop idx) r4
    else
      if size < W.length then (0, data, { st with rng := r3 })
      else
        let (idx, r4) := if useHint then (hint, r3) else r3.next (size - W.length)
        success size (data.take idx ++ W ++ data.drop (idx + W.length)) r4

def Mutate_AddWordFromManualDictionary (st : MD) (data : List Nat) (maxSize : Nat) :
    Nat × List Nat × MD :=
  AddWordFromDictionary st .manual data maxSize

def Mutate_AddWordFromTemporaryAutoDictionary (st : MD) (data : List Nat) (maxSize : Nat) :
    Nat × List Nat × MD :=
  AddWordFromDictionary st .tempAuto data maxSize

def Mutate_AddWordFromPersistentAutoDictionary (st : MD) (data : List Nat) (maxSize : Nat) :
    Nat × List Nat × MD :=
  AddWordFromDictionary st .persAuto data maxSize

/-! ## The registry and the dispatch loop -/
/-- A named mutation operation (`MutationDispatcher::Mutator`). -/
structure Mutator where
  name : String
  fn : MD → List Nat → Nat → Nat × List Nat × MD

/-- The built-in default registry, in constructor order.  No custom mutator or
custom crossover callback is linked in, so the active registry `Mutators`
equals `DefaultMutators`. -/
def DefaultMutators : List Mutator :=
  [⟨"EraseBytes", Mutate_EraseBytes⟩,
   ⟨"InsertByte", Mutate_InsertByte⟩,
   ⟨"InsertRepeatedBytes", Mutate_InsertRepeatedBytes⟩,
   ⟨"ChangeByte", Mutate_ChangeByte⟩,
   ⟨"ChangeBit", Mutate_ChangeBit⟩,
   ⟨"ShuffleBytes", Mutate_ShuffleBytes⟩,
   ⟨"ChangeASCIIInt", Mutate_ChangeASCIIInteger⟩,
   ⟨"ChangeBinInt", Mutate_ChangeBinaryInteger⟩,
   ⟨"CopyPart", Mutate_CopyPart⟩,
   ⟨"CrossOver", Mutate_CrossOver⟩,
   ⟨"AddFromManualDict", Mutate_AddWordFromManualDictionary⟩,
   ⟨"AddFromTempAutoDict", Mutate_AddWordFromTemporaryAutoDictionary⟩,
   ⟨"AddFromPersAutoDict", Mutate_AddWordFromPersistentAutoDictionary⟩]

/-- Modelled from the spec: `ToASCII` lives in `FuzzerUtil.cpp`, which is not
among the sources here.  Per the spec it "fold[s] all bytes into the printable
ASCII range". -/
def ToASCII (l : List Nat) : List Nat :=
  l.map fun b =>
    let x := b % 128
    if 32 ≤ x ∧ x ≤ 126 then x else 32

/-- The `Size == 0` path of `MutateImpl`: fill `MaxSize` bytes with `RandCh`. -/
def genBytes : Nat → Rng → List Nat × Rng
  | 0, r => ([], r)
  | n + 1, r =>
    let (c, r1) := randCh r
    let (rest, r2) := genBytes n r1
    (c :: rest, r2)

/-- The retry loop of `MutateImpl` (`for (int Iter = 0; Iter < 10; Iter++)`),
with the remaining iteration count as fuel.  A successful mutator ends the loop:
its result is ASCII-folded when `Options.OnlyASCII` is set and its descriptor is
appended to `CurrentMutatorSequence`.  When the fuel is exhausted the original
size is returned. -/
def mutateLoop (mutators : List Mutator) :
    Nat → MD → List Nat → Nat → Nat × List Nat × MD
  | 0, st, data, _ => (data.length, data, st)
  | fuel + 1, st, data, maxSize =>
    let (mi, r1) := st.rng.next mutators.length
    let M := mutators.getD mi ⟨"", fun st d _ => (0, d, st)⟩
    let (ns, d', st') := M.fn { st with rng := r1 } data maxSize
    if ns ≠ 0 then
      let d'' := if st'.onlyASCII then ToASCII d' else d'
      (ns, d'',
       { st' with currentMutatorSequence := st'.currentMutatorSequence ++ [M.name] })
    else mutateLoop mutators fuel st' d' maxSize

/-- Embeds `MutationDispatcher::MutateImpl`. -/
def MutateImpl (st : MD) (data : List Nat) (maxSize : Nat)
    (mutators : List Mutator) : Nat × List Nat × MD :=
  if data.length = 0 then
    let (fresh, r1) := genBytes maxSize st.rng
    (maxSize, (if st.onlyASCII then ToASCII fresh else fresh), { st with rng := r1 })
  else mutateLoop mutators 10 st data maxSize

/-- Embeds `MutationDispatcher::Mutate`. -/
def Mutate (st : MD) (data : List Nat) (maxSize : Nat) : Nat × List Nat × MD :=
  MutateImpl st data maxSize DefaultMutators

/-! ## Sequence bookkeeping and the auto dictionaries -/
/-- Embeds `MutationDispatcher::StartMutationSequence`. -/
def StartMutationSequence (st : MD) : MD :=
  { st with currentMutatorSequence := [], currentDictionaryEntrySequence := [] }

def entryAt (st : MD) (r : EntryRef) : DictionaryEntry :=
  (dictOf st r.dict).getD r.idx default

def incSuccess (st : MD) (r : EntryRef) : MD :=
  setDict st r.dict
    (modifyIdx (dictOf st r.dict) r.idx fun e =>
      { e with successCount := e.successCount + 1 })

/-- Embeds one iteration of the loop in `RecordSuccessfulMutationSequence`:
`DE->IncSuccessCount()` followed by the dedup-guarded
`PersistentAutoDictionary.push_back({DE->GetW(), 1})`.  Modelled from the spec
for the part living in `FuzzerDictionary.h`: the appended entry carries the
word "with a fresh success counter of 1". -/
def recordStep (st : MD) (r : EntryRef) : MD :=
  let st1 := incSuccess st r
  let w := (entryAt st1 r).word
  if ContainsWord st1.persistentAutoDictionary w then st1
  else
    { st1 with persistentAutoDictionary :=
        st1.persistentAutoDictionary ++ [⟨w, none, 0, 1⟩] }

/-- Embeds `MutationDispatcher::RecordSuccessfulMutationSequence`. -/
def RecordSuccessfulMutationSequence (st : MD) : MD :=
  st.currentDictionaryEntrySequence.foldl recordStep st

/-- The vector `V` assembled by `PrintRecommendedDictionary`: the persistent
entries whose word is not in the manual dictionary. -/
def RecommendedDictionary (st : MD) : List DictionaryEntry :=
  st.persistentAutoDictionary.filter fun e => !ContainsWord st.manualDictionary e.word

/-- Embeds `MutationDispatcher::AddWordToManualDictionary` (the `SIZE_MAX` position
hint of the source denotes "no hint"). -/
def AddWordToManualDictionary (st : MD) (w : List Nat) : MD :=
  { st with manualDictionary := st.manualDictionary ++ [⟨w, none, 0, 0⟩] }

def kMaxAutoDictSize : Nat := 2 ^ 14

/-- Embeds `MutationDispatcher::AddWordToAutoDictionary`. -/
def AddWordToAutoDictionary (st : MD) (de : DictionaryEntry) : MD :=
  if kMaxAutoDictSize ≤ st.tempAutoDictionary.length then st
  else { st with tempAutoDictionary := st.tempAutoDictionary ++ [de] }

/-- Embeds `MutationDispatcher::ClearAutoDictionary`. -/
def ClearAutoDictionary (st : MD) : MD :=
  { st with tempAutoDictionary := [] }

/-- The freshly constructed dispatcher: all dictionaries, sequences and the
scratch buffer empty; the corpus reference and options injected from outside. -/
def initMD (stream : Nat → Nat) (corpus : Option (List (List Nat)))
    (onlyASCII : Bool) : MD :=
  { manualDictionary := []
    tempAutoDictionary := []
    persistentAutoDictionary := []
    currentMutatorSequence := []
    currentDictionaryEntrySequence := []
    mutateInPlaceHere := []
    corpus := corpus
    onlyASCII := onlyASCII
    rng := ⟨stream, 0⟩ }

/-- The dispatcher states reachable through its public operations. -/
inductive Reachable : MD → Prop where
  | init (stream : Nat → Nat) (corpus : Option (List (List Nat))) (onlyASCII : Bool) :
      Reachable (initMD stream corpus onlyASCII)
  | mutate {st : MD} (data : List Nat) (maxSize : Nat) (h : Reachable st) :
      Reachable (Mutate st data maxSize).2.2
  | start {st : MD} (h : Reachable st) : Reachable (StartMutationSequence st)
  | record {st : MD} (h : Reachable st) : Reachable (RecordSuccessfulMutationSequence st)
  | addManual {st : MD} (w : List Nat) (h : Reachable st) :
      Reachable (AddWordToManualDictionary st w)
  | addAuto {st : MD} (de : DictionaryEntry) (h : Reachable st) :
      Reachable (AddWordToAutoDictionary st de)
  | clearAuto {st : MD} (h : Reachable st) : Reachable (ClearAutoDictionary st)

/-! ## Shared facts about the built-in mutators -/
/-- The words held by the three dictionaries of a state. -/
def DictsFootprint (st : MD) : List (List Nat) × List (List Nat) × List (List Nat) :=
  (st.manualDictionary.map (·.word), st.tempAutoDictionary.map (·.word),
   st.persistentAutoDictionary.map (·.word))

/-- The facts shared by every built-in mutator: the dictionary words, the
current-mutator-sequence and the options survive a call; and on valid states
(`0 < Size ≤ MaxSize`) a `0` return leaves the buffer unchanged while a nonzero
returned size lies in `[1, MaxSize]`. -/
def PreservesCore (f : MD → List Nat → Nat → Nat × List Nat × MD) : Prop :=
  ∀ st data maxSize,
    DictsFootprint (f st data maxSize).2.2 = DictsFootprint st ∧
    (f st data maxSize).2.2.currentMutatorSequence = st.currentMutatorSequence ∧
    (f st data maxSize).2.2.onlyASCII = st.onlyASCII ∧
    (0 < data.length → data.length ≤ maxSize → (f st data maxSize).1 = 0 →
      (f st data maxSize).2.1 = data) ∧
    (0 < data.length → data.length ≤ maxSize → (f st data maxSize).1 ≠ 0 →
      1 ≤ (f st data maxSize).1 ∧ (f st data maxSize).1 ≤ maxSize)

/-- A dispatcher state with a single 3-byte manual dictionary word, and a
10-byte buffer, used to witness the dictionary mutator facts. -/
def exDictState : MD :=
  { initMD (fun _ => 0) none false with
      manualDictionary := [⟨[1, 2, 3], none, 0, 0⟩] }

def exBuf : List Nat := List.replicate 10 0

def c5Stream : Nat → Nat := fun i => [10, 0, 1, 0].getD i 0

/-- A dispatcher state whose current chain used the temporary-auto entries
`{A, B, A}` (indices 0, 1, 0). -/
def c2State (wA wB : List Nat) (cA cB : Nat) : MD :=
  { initMD (fun _ => 0) none false with
      tempAutoDictionary := [⟨wA, none, 0, cA⟩, ⟨wB, none, 0, cB⟩],
      currentDictionaryEntrySequence :=
        [⟨.tempAuto, 0⟩, ⟨.tempAuto, 1⟩, ⟨.tempAuto, 0⟩] }

def c4Stream : Nat → Nat := fun i => [0, 1, 0, 2].getD i 0

/-- A dispatcher whose scratch buffer still holds stale bytes `[9, 9, 9]` from
earlier operations, a two-entry corpus, and a current buffer `[1]`. -/
def c4State : MD :=
  { initMD c4Stream (some [[2], [2]]) false with mutateInPlaceHere := [9, 9, 9] }

/-! ## Theorems -/

theorem Rng.next_fst_lt (r : Rng) (n : Nat) (h : 0 < n) : (r.next n).1 < n := by
  simp only [Rng.next]
  have hn : n ≠ 0 := Nat.pos_iff_ne_zero.mp h
  simp [hn, Nat.mod_lt _ h]

theorem modifyIdx_map (l : List α) (i : Nat) (f : α → α) (g : α → β)
    (h : ∀ a, g (f a) = g a) : (modifyIdx l i f).map g = l.map g := by
  induction l generalizing i with
  | nil => rfl
  | cons x xs ih =>
    cases i with
    | zero => simp [modifyIdx, h]
    | succ j => simp [modifyIdx, ih]

theorem modifyIdx_length (l : List α) (i : Nat) (f : α → α) :
    (modifyIdx l i f).length = l.length := by
  induction l generalizing i with
  | nil => rfl
  | cons x xs ih =>
    cases i with
    | zero => simp [modifyIdx]
    | succ j => simp [modifyIdx, ih]

theorem resizeList_length (l : List Nat) (n : Nat) : (resizeList l n).length = n := by
  simp [resizeList]
  omega

theorem blendLists_length (d1 d2 : List Nat) :
    (blendLists d1 d2).length = d1.length + d2.length := by
  induction d1 generalizing d2 with
  | nil => simp [blendLists]
  | cons x xs ih =>
    cases d2 with
    | nil => simp [blendLists]
    | cons y ys =>
      have hstep : blendLists (x :: xs) (y :: ys) = x :: y :: blendLists xs ys := by
        simp [blendLists, List.zip]
      rw [hstep]
      simp [ih ys]
      omega

theorem eraseBytes_core : PreservesCore Mutate_EraseBytes := by
  intro st data maxSize
  unfold Mutate_EraseBytes
  by_cases hsz : data.length = 1
  · simp [hsz]
  · rcases h1 : st.rng.next (data.length / 2) with ⟨n0, r1⟩
    rcases h2 : r1.next (data.length - (n0 + 1) + 1) with ⟨idx, r2⟩
    simp only [if_neg hsz, h1, h2]
    refine ⟨rfl, by trivial, by trivial, ?_, ?_⟩
    · intro h0 hle hzero
      have hlt := Rng.next_fst_lt st.rng (data.length / 2) (by omega)
      rw [h1] at hlt
      exact absurd hzero (by omega)
    · intro h0 hle hnz
      have hlt := Rng.next_fst_lt st.rng (data.length / 2) (by omega)
      rw [h1] at hlt
      constructor <;> omega

theorem insertByte_core : PreservesCore Mutate_InsertByte := by
  intro st data maxSize
  unfold Mutate_InsertByte
  by_cases hsz : data.length = maxSize
  · simp [hsz]
  · rcases h1 : st.rng.next (data.length + 1) with ⟨idx, r1⟩
    rcases h2 : randCh r1 with ⟨c, r2⟩
    simp only [if_neg hsz, h1, h2]
    refine ⟨rfl, by trivial, by trivial, ?_, ?_⟩
    · intro _ _ hzero
      exact absurd hzero (by omega)
    · intro h0 hle _
      constructor <;> omega

theorem insertRepeatedBytes_core : PreservesCore Mutate_InsertRepeatedBytes := by
  intro st data maxSize
  unfold Mutate_InsertRepeatedBytes
  by_cases hsz : maxSize ≤ data.length + 3
  · simp [hsz]
  · rcases h1 : st.rng.next (min (maxSize - data.length) 128 - 3 + 1) with ⟨n0, r1⟩
    rcases h2 : r1.next (data.length + 1) with ⟨idx, r2⟩
    rcases h3 : r2.nextBool with ⟨b1, r3⟩
    have hlt := Rng.next_fst_lt st.rng (min (maxSize - data.length) 128 - 3 + 1) (by omega)
    rw [h1] at hlt
    rcases b1 with _ | _
    · rcases h4 : r3.nextBool with ⟨b2, r4⟩
      simp only [if_neg hsz, h1, h2, h3, h4]
      refine ⟨rfl, by trivial, by trivial, ?_, ?_⟩
      · intro _ _ hzero
        exact absurd hzero (by omega)
      · intro h0 hle _
        constructor <;> omega
    · rcases h4 : r3.next 256 with ⟨byte, r4⟩
      simp only [if_neg hsz, h1, h2, h3, h4]
      refine ⟨rfl, by trivial, by trivial, ?_, ?_⟩
      · intro _ _ hzero
        exact absurd hzero (by omega)
      · intro h0 hle _
        constructor <;> omega

theorem changeByte_core : PreservesCore Mutate_ChangeByte := by
  intro st data maxSize
  unfold Mutate_ChangeByte
  rcases h1 : st.rng.next data.length with ⟨idx, r1⟩
  rcases h2 : randCh r1 with ⟨c, r2⟩
  simp only [h1, h2]
  refine ⟨rfl, by trivial, by trivial, ?_, ?_⟩
  · intro h0 _ hzero
    omega
  · intro h0 hle _
    exact ⟨h0, hle⟩

theorem changeBit_core : PreservesCore Mutate_ChangeBit := by
  intro st data maxSize
  unfold Mutate_ChangeBit
  rcases h1 : st.rng.next data.length with ⟨idx, r1⟩
  rcases h2 : r1.next 8 with ⟨bit, r2⟩
  simp only [h1, h2]
  refine ⟨rfl, by trivial, by trivial, ?_, ?_⟩
  · intro h0 _ hzero
    omega
  · intro h0 hle _
    exact ⟨h0, hle⟩

theorem shuffleBytes_core : PreservesCore Mutate_ShuffleBytes := by
  intro st data maxSize
  unfold Mutate_ShuffleBytes
  rcases h1 : st.rng.next (min data.length 8) with ⟨a0, r1⟩
  rcases h2 : r1.next (data.length - (a0 + 1)) with ⟨start, r2⟩
  rcases h3 : randomShuffle ((data.drop start).take (a0 + 1)) r2 with ⟨seg2, r3⟩
  simp only [h1, h2, h3]
  refine ⟨rfl, by trivial, by trivial, ?_, ?_⟩
  · intro h0 _ hzero
    omega
  · intro h0 hle _
    exact ⟨h0, hle⟩

theorem changeASCIIInteger_core : PreservesCore Mutate_ChangeASCIIInteger := by
  intro st data maxSize
  unfold Mutate_ChangeASCIIInteger
  rcases h1 : st.rng.next data.length with ⟨b0, r1⟩
  by_cases hB : findDigitFrom data b0 = data.length
  · simp [h1, hB]
    rfl
  · rcases h2 : r1.next 5 with ⟨c, r2⟩
    have hgoal : ∀ v : Nat, ∀ r3 : Rng,
        DictsFootprint { st with rng := r3 } = DictsFootprint st ∧ True ∧ True ∧
        (0 < data.length → data.length ≤ maxSize → data.length = 0 →
          writeDigits data (findDigitFrom data b0)
            (digitRunEnd data (findDigitFrom data b0) - findDigitFrom data b0) v = data) ∧
        (0 < data.length → data.length ≤ maxSize → data.length ≠ 0 →
          1 ≤ data.length ∧ data.length ≤ maxSize) := by
      intro v r3
      refine ⟨rfl, trivial, trivial, ?_, ?_⟩
      · intro h0 _ hzero
        omega
      · intro h0 hle _
        exact ⟨h0, hle⟩
    rcases c with _ | _ | _ | _ | c
    · simp only [h1, if_neg hB, h2]
      exact hgoal _ _
    · simp only [h1, if_neg hB, h2]
      exact hgoal _ _
    · simp only [h1, if_neg hB, h2]
      exact hgoal _ _
    · simp only [h1, if_neg hB, h2]
      exact hgoal _ _
    · rcases h3 : r2.next (parseVal data (findDigitFrom data b0)
          (digitRunEnd data (findDigitFrom data b0)) *
          parseVal data (findDigitFrom data b0)
            (digitRunEnd data (findDigitFrom data b0)) % 2 ^ 64) with ⟨v, r3⟩
      simp only [h1, if_neg hB, h2, h3]
      exact hgoal _ _

theorem changeBinaryIntegerW_core (w : Nat) (hw : 0 < w) (st : MD) (data : List Nat) :
    DictsFootprint (changeBinaryIntegerW w st data).2.2 = DictsFootprint st ∧
    (changeBinaryIntegerW w st data).2.2.currentMutatorSequence =
      st.currentMutatorSequence ∧
    (changeBinaryIntegerW w st data).2.2.onlyASCII = st.onlyASCII ∧
    ((changeBinaryIntegerW w st data).1 = 0 →
      (changeBinaryIntegerW w st data).2.1 = data) ∧
    ((changeBinaryIntegerW w st data).1 ≠ 0 →
      (changeBinaryIntegerW w st data).1 = data.length) := by
  unfold changeBinaryIntegerW
  by_cases hsz : data.length < w
  · simp [hsz]
  · rcases h1 : st.rng.next (data.length - w + 1) with ⟨off, r1⟩
    rcases h2 : r1.next 21 with ⟨a0, r2⟩
    rcases h3 : r2.nextBool with ⟨b1, r3⟩
    by_cases ha : a0 = 10
    · simp only [if_neg hsz, h1, h2, h3, if_pos ha]
      refine ⟨rfl, by trivial, by trivial, ?_, fun _ => by trivial⟩
      intro hzero
      omega
    · rcases h4 : r3.nextBool with ⟨neg, r4⟩
      simp only [if_neg hsz, h1, h2, h3, if_neg ha, h4]
      refine ⟨rfl, by trivial, by trivial, ?_, fun _ => by trivial⟩
      intro hzero
      omega

theorem changeBinaryInteger_core : PreservesCore Mutate_ChangeBinaryInteger := by
  intro st data maxSize
  unfold Mutate_ChangeBinaryInteger
  rcases h1 : st.rng.next 4 with ⟨c, r1⟩
  have key : ∀ w, 0 < w →
      DictsFootprint (changeBinaryIntegerW w { st with rng := r1 } data).2.2 =
        DictsFootprint st ∧
      (changeBinaryIntegerW w { st with rng := r1 } data).2.2.currentMutatorSequence =
        st.currentMutatorSequence ∧
      (changeBinaryIntegerW w { st with rng := r1 } data).2.2.onlyASCII = st.onlyASCII ∧
      (0 < data.length → data.length ≤ maxSize →
        (changeBinaryIntegerW w { st with rng := r1 } data).1 = 0 →
        (changeBinaryIntegerW w { st with rng := r1 } data).2.1 = data) ∧
      (0 < data.length → data.length ≤ maxSize →
        (changeBinaryIntegerW w { st with rng := r1 } data).1 ≠ 0 →
        1 ≤ (changeBinaryIntegerW w { st with rng := r1 } data).1 ∧
        (changeBinaryIntegerW w { st with rng := r1 } data).1 ≤ maxSize) := by
    intro w hw
    obtain ⟨hf, hs, ho, hz, hn⟩ := changeBinaryIntegerW_core w hw { st with rng := r1 } data
    refine ⟨hf, hs, ho, fun _ _ => hz, fun h0 hle hne => ?_⟩
    rw [hn hne]
    exact ⟨h0, hle⟩
  rcases c with _ | _ | _ | _ | c <;> simp only [h1] <;>
    first
      | exact key 1 (by omega)
      | exact key 2 (by omega)
      | exact key 4 (by omega)
      | exact key 8 (by omega)

theorem copyPart_core : PreservesCore Mutate_CopyPart := by
  intro st data maxSize
  unfold Mutate_CopyPart
  rcases h1 : st.rng.nextBool with ⟨b, r1⟩
  rcases b with _ | _
  · unfold InsertPartOf
    by_cases hcap : maxSize ≤ data.length
    · simp only [h1, Bool.false_eq_true, if_false, if_pos hcap, eq_self_iff_true,
        if_true]
      refine ⟨rfl, by trivial, by trivial, fun _ _ _ => by trivial, ?_⟩
      intro _ _ hne
      exact absurd rfl hne
    · rcases h2 : r1.next (min (maxSize - data.length) data.length) with ⟨c0, r2⟩
      rcases h3 : r2.next (data.length - (c0 + 1) + 1) with ⟨fromBeg, r3⟩
      rcases h4 : r3.next (data.length + 1) with ⟨pos, r4⟩
      have hne : data.length + (c0 + 1) ≠ 0 := by omega
      simp only [h1, Bool.false_eq_true, if_false, if_neg hcap, h2, h3, h4,
        if_neg hne]
      refine ⟨rfl, by trivial, by trivial, ?_, ?_⟩
      · intro _ _ hzero
        exact absurd hzero hne
      · intro h0 hle _
        have hlt := Rng.next_fst_lt r1 (min (maxSize - data.length) data.length)
          (by omega)
        rw [h2] at hlt
        constructor <;> omega
  · unfold CopyPartOf
    rcases h2 : r1.next data.length with ⟨toBeg, r2⟩
    rcases h3 : r2.next (data.length - toBeg) with ⟨c0, r3⟩
    rcases h4 : r3.next (data.length - min (c0 + 1) data.length + 1) with ⟨fromBeg, r4⟩
    simp only [h1, eq_self_iff_true, if_true, h2, h3, h4]
    refine ⟨rfl, by trivial, by trivial, ?_, ?_⟩
    · intro h0 _ hzero
      omega
    · intro h0 hle _
      exact ⟨h0, hle⟩

theorem crossOver_fst_bounds (r : Rng) (d1 d2 : List Nat) (m : Nat)
    (h1 : 0 < d1.length) (hm : 0 < m) :
    1 ≤ (CrossOver r d1 d2 m).1 ∧ (CrossOver r d1 d2 m).1 ≤ m := by
  unfold CrossOver
  rcases h : r.next m with ⟨t, r1⟩
  have hlt := Rng.next_fst_lt r m hm
  rw [h] at hlt
  simp only [h, List.length_take, blendLists_length]
  constructor
  · exact le_min (by omega) (by omega)
  · exact le_trans (min_le_left _ _) (by omega)

theorem crossOver_core : PreservesCore Mutate_CrossOver := by
  intro st data maxSize
  unfold Mutate_CrossOver
  rcases hc : st.corpus with _ | corpus
  · simp [hc]
  · by_cases hsm : corpus.length < 2 ∨ data.length = 0
    · simp only [hc]
      rw [if_pos hsm]
      exact ⟨rfl, rfl, rfl, fun _ _ _ => rfl, fun _ _ hne => absurd rfl hne⟩
    · push_neg at hsm
      obtain ⟨hcorp, hlen⟩ := hsm
      have hguard : ¬(corpus.length < 2 ∨ data.length = 0) :=
        not_or.mpr ⟨by omega, hlen⟩
      rcases h1 : st.rng.next corpus.length with ⟨i, r1⟩
      by_cases hO : (corpus.getD i []).length = 0
      · simp only [hc, if_neg hguard, h1, if_pos hO]
        refine ⟨rfl, by trivial, by trivial, fun _ _ _ => by trivial, ?_⟩
        intro _ _ hne
        exact absurd rfl hne
      · rcases h2 : r1.next 3 with ⟨c, r2⟩
        by_cases hc0 : c = 0
        · rcases hcr : CrossOver r2 data (corpus.getD i [])
            ((resizeList st.mutateInPlaceHere maxSize).length) with ⟨ns, blended, r3⟩
          simp only [hc, if_neg hguard, h1, if_neg hO, h2, if_pos hc0, hcr]
          refine ⟨rfl, by trivial, by trivial, ?_, ?_⟩
          · intro h0 hle hzero
            have hb := crossOver_fst_bounds r2 data (corpus.getD i [])
              ((resizeList st.mutateInPlaceHere maxSize).length) h0
              (by rw [resizeList_length]; omega)
            rw [hcr] at hb
            simp only at hb
            omega
          · intro h0 hle _
            have hb := crossOver_fst_bounds r2 data (corpus.getD i [])
              ((resizeList st.mutateInPlaceHere maxSize).length) h0
              (by rw [resizeList_length]; omega)
            rw [hcr] at hb
            rw [resizeList_length] at hb
            simp only at hb
            exact ⟨by omega, by omega⟩
        · by_cases hc1 : c = 1
          · unfold InsertPartOf CopyPartOf
            rcases h3 : r2.next maxSize with ⟨toBeg, r3⟩
            rcases h4 : r3.next (maxSize - toBeg) with ⟨c0, r4⟩
            rcases h5 : r4.next ((corpus.getD i []).length -
              min (c0 + 1) (corpus.getD i []).length + 1) with ⟨fromBeg, r5⟩
            simp only [hc, if_neg hguard, h1, if_neg hO, h2, resizeList_length,
              if_neg hc0, if_pos hc1, le_refl, if_pos, ne_eq, not_true_eq_false,
              if_false, h3, h4, h5, eq_self_iff_true, if_true]
            refine ⟨rfl, by trivial, by trivial, ?_, ?_⟩
            · intro h0 hle hzero
              omega
            · intro h0 hle _
              exact ⟨by omega, by trivial⟩
          · unfold CopyPartOf
            rcases h3 : r2.next maxSize with ⟨toBeg, r3⟩
            rcases h4 : r3.next (maxSize - toBeg) with ⟨c0, r4⟩
            rcases h5 : r4.next ((corpus.getD i []).length -
              min (c0 + 1) (corpus.getD i []).length + 1) with ⟨fromBeg, r5⟩
            simp only [hc, if_neg hguard, h1, if_neg hO, h2, resizeList_length,
              if_neg hc0, if_neg hc1, h3, h4, h5]
            refine ⟨rfl, by trivial, by trivial, ?_, ?_⟩
            · intro h0 hle hzero
              omega
            · intro h0 hle _
              exact ⟨by omega, by trivial⟩

theorem setDict_footprint_modify (st : MD) (d : DictId) (i : Nat) :
    DictsFootprint (setDict st d (modifyIdx (dictOf st d) i
      fun e => { e with useCount := e.useCount + 1 })) = DictsFootprint st := by
  cases d <;>
    · simp only [setDict, dictOf, DictsFootprint]
      rw [modifyIdx_map _ i
        (fun e : DictionaryEntry => { e with useCount := e.useCount + 1 })
        (fun x : DictionaryEntry => x.word) (fun a => rfl)]

theorem setDict_cms (st : MD) (d : DictId) (l : List DictionaryEntry) :
    (setDict st d l).currentMutatorSequence = st.currentMutatorSequence := by
  cases d <;> rfl

theorem setDict_ascii (st : MD) (d : DictId) (l : List DictionaryEntry) :
    (setDict st d l).onlyASCII = st.onlyASCII := by
  cases d <;> rfl

theorem addWord_core (d : DictId) :
    PreservesCore fun st data maxSize => AddWordFromDictionary st d data maxSize := by
  intro st data maxSize
  dsimp only
  unfold AddWordFromDictionary
  by_cases hD : (dictOf st d).length = 0
  · simp only [if_pos hD]
    exact ⟨by trivial, by trivial, by trivial, fun _ _ _ => trivial,
      fun _ _ hne => absurd rfl hne⟩
  · rcases h1 : st.rng.next (dictOf st d).length with ⟨i, r1⟩
    simp only [if_neg hD, h1]
    set DE := (dictOf st d).getD i default with hDE
    rcases hph : DE.positionHint with _ | hp
    · rcases hbi : r1.nextBool with ⟨bIns, r3⟩
      rcases bIns with _ | _
      · by_cases hcap : data.length < DE.word.length
        · simp only [hph, hbi, Bool.false_eq_true, if_false,
            eq_self_iff_true, if_true, if_pos hcap]
          exact ⟨rfl, by trivial, by trivial, fun _ _ _ => by trivial,
            fun _ _ hne => absurd rfl hne⟩
        · rcases h4 : r3.next (data.length - DE.word.length) with ⟨idx, r4⟩
          simp only [hph, hbi, Bool.false_eq_true, if_false,
            eq_self_iff_true, if_true, if_neg hcap, h4]
          refine ⟨setDict_footprint_modify st d i, by exact setDict_cms st d _,
            by exact setDict_ascii st d _, ?_, ?_⟩
          · intro h0 _ hz
            omega
          · intro h0 hle _
            exact ⟨h0, hle⟩
      · by_cases hcap : maxSize < data.length + DE.word.length
        · simp only [hph, hbi, Bool.false_eq_true, if_false,
            eq_self_iff_true, if_true, if_pos hcap]
          exact ⟨rfl, by trivial, by trivial, fun _ _ _ => by trivial,
            fun _ _ hne => absurd rfl hne⟩
        · rcases h4 : r3.next (data.length + 1) with ⟨idx, r4⟩
          simp only [hph, hbi, Bool.false_eq_true, if_false,
            eq_self_iff_true, if_true, if_neg hcap, h4]
          refine ⟨setDict_footprint_modify st d i, by exact setDict_cms st d _,
            by exact setDict_ascii st d _, ?_, ?_⟩
          · intro h0 _ hz
            omega
          · intro h0 hle _
            exact ⟨by omega, by omega⟩
    · by_cases hcnd : hp + DE.word.length < data.length
      · rcases hbu : r1.nextBool with ⟨u, r2b⟩
        rcases hbi : r2b.nextBool with ⟨bIns, r3⟩
        rcases u with _ | _
        · rcases bIns with _ | _
          · by_cases hcap : data.length < DE.word.length
            · simp only [hph, if_pos hcnd, hbu, hbi,
                Bool.false_eq_true, if_false, eq_self_iff_true, if_true,
                if_pos hcap]
              exact ⟨rfl, by trivial, by trivial, fun _ _ _ => by trivial,
                fun _ _ hne => absurd rfl hne⟩
            · rcases h4 : r3.next (data.length - DE.word.length) with ⟨idx, r4⟩
              simp only [hph, if_pos hcnd, hbu, hbi,
                Bool.false_eq_true, if_false, eq_self_iff_true, if_true,
                if_neg hcap, h4]
              refine ⟨setDict_footprint_modify st d i, by exact setDict_cms st d _,
                by exact setDict_ascii st d _, ?_, ?_⟩
              · intro h0 _ hz
                omega
              · intro h0 hle _
                exact ⟨h0, hle⟩
          · by_cases hcap : maxSize < data.length + DE.word.length
            · simp only [hph, if_pos hcnd, hbu, hbi,
                Bool.false_eq_true, if_false, eq_self_iff_true, if_true,
                if_pos hcap]
              exact ⟨rfl, by trivial, by trivial, fun _ _ _ => by trivial,
                fun _ _ hne => absurd rfl hne⟩
            · rcases h4 : r3.next (data.length + 1) with ⟨idx, r4⟩
              simp only [hph, if_pos hcnd, hbu, hbi,
                Bool.false_eq_true, if_false, eq_self_iff_true, if_true,
                if_neg hcap, h4]
              refine ⟨setDict_footprint_modify st d i, by exact setDict_cms st d _,
                by exact setDict_ascii st d _, ?_, ?_⟩
              · intro h0 _ hz
                omega
              · intro h0 hle _
                exact ⟨by omega, by omega⟩
        · rcases bIns with _ | _
          · by_cases hcap : data.length < DE.word.length
            · simp only [hph, if_pos hcnd, hbu, hbi,
                Bool.false_eq_true, if_false, eq_self_iff_true, if_true,
                if_pos hcap]
              exact ⟨rfl, by trivial, by trivial, fun _ _ _ => by trivial,
                fun _ _ hne => absurd rfl hne⟩
            · simp only [hph, if_pos hcnd, hbu, hbi,
                Bool.false_eq_true, if_false, eq_self_iff_true, if_true,
                if_neg hcap]
              refine ⟨setDict_footprint_modify st d i, by exact setDict_cms st d _,
                by exact setDict_ascii st d _, ?_, ?_⟩
              · intro h0 _ hz
                omega
              · intro h0 hle _
                exact ⟨h0, hle⟩
          · by_cases hcap : maxSize < data.length + DE.word.length
            · simp only [hph, if_pos hcnd, hbu, hbi,
                Bool.false_eq_true, if_false, eq_self_iff_true, if_true,
                if_pos hcap]
              exact ⟨rfl, by trivial, by trivial, fun _ _ _ => by trivial,
                fun _ _ hne => absurd rfl hne⟩
            · simp only [hph, if_pos hcnd, hbu, hbi,
                Bool.false_eq_true, if_false, eq_self_iff_true, if_true,
                if_neg hcap]
              refine ⟨setDict_footprint_modify st d i, by exact setDict_cms st d _,
                by exact setDict_ascii st d _, ?_, ?_⟩
              · intro h0 _ hz
                omega
              · intro h0 hle _
                exact ⟨by omega, by omega⟩
      · rcases hbi : r1.nextBool with ⟨bIns, r3⟩
        rcases bIns with _ | _
        · by_cases hcap : data.length < DE.word.length
          · simp only [hph, if_neg hcnd, hbi, Bool.false_eq_true,
              if_false, eq_self_iff_true, if_true, if_pos hcap]
            exact ⟨rfl, by trivial, by trivial, fun _ _ _ => by trivial,
              fun _ _ hne => absurd rfl hne⟩
          · rcases h4 : r3.next (data.length - DE.word.length) with ⟨idx, r4⟩
            simp only [hph, if_neg hcnd, hbi, Bool.false_eq_true,
              if_false, eq_self_iff_true, if_true, if_neg hcap, h4]
            refine ⟨setDict_footprint_modify st d i, by exact setDict_cms st d _,
              by exact setDict_ascii st d _, ?_, ?_⟩
            · intro h0 _ hz
              omega
            · intro h0 hle _
              exact ⟨h0, hle⟩
        · by_cases hcap : maxSize < data.length + DE.word.length
          · simp only [hph, if_neg hcnd, hbi, Bool.false_eq_true,
              if_false, eq_self_iff_true, if_true, if_pos hcap]
            exact ⟨rfl, by trivial, by trivial, fun _ _ _ => by trivial,
              fun _ _ hne => absurd rfl hne⟩
          · rcases h4 : r3.next (data.length + 1) with ⟨idx, r4⟩
            simp only [hph, if_neg hcnd, hbi, Bool.false_eq_true,
              if_false, eq_self_iff_true, if_true, if_neg hcap, h4]
            refine ⟨setDict_footprint_modify st d i, by exact setDict_cms st d _,
              by exact setDict_ascii st d _, ?_, ?_⟩
            · intro h0 _ hz
              omega
            · intro h0 hle _
              exact ⟨by omega, by omega⟩

theorem addManualDict_core : PreservesCore Mutate_AddWordFromManualDictionary :=
  addWord_core DictId.manual

theorem addTempAutoDict_core : PreservesCore Mutate_AddWordFromTemporaryAutoDictionary :=
  addWord_core DictId.tempAuto

theorem addPersAutoDict_core : PreservesCore Mutate_AddWordFromPersistentAutoDictionary :=
  addWord_core DictId.persAuto

theorem all_default_core : ∀ m ∈ DefaultMutators, PreservesCore m.fn := by
  intro m hm
  simp only [DefaultMutators, List.mem_cons, List.not_mem_nil, or_false] at hm
  rcases hm with rfl | rfl | rfl | rfl | rfl | rfl | rfl | rfl | rfl | rfl | rfl | rfl | rfl
  · exact eraseBytes_core
  · exact insertByte_core
  · exact insertRepeatedBytes_core
  · exact changeByte_core
  · exact changeBit_core
  · exact shuffleBytes_core
  · exact changeASCIIInteger_core
  · exact changeBinaryInteger_core
  · exact copyPart_core
  · exact crossOver_core
  · exact addManualDict_core
  · exact addTempAutoDict_core
  · exact addPersAutoDict_core

theorem defaultMutatorFn_core : PreservesCore fun st d _ => ((0 : Nat), d, st) :=
  fun _ _ _ => ⟨rfl, rfl, rfl, fun _ _ _ => rfl, fun _ _ hne => absurd rfl hne⟩

theorem getD_mem_of_lt (l : List Mutator) (i : Nat) (dflt : Mutator)
    (h : i < l.length) : l.getD i dflt ∈ l := by
  rw [List.getD_eq_getElem?_getD, List.getElem?_eq_getElem h]
  exact List.getElem_mem h

/-- The mutator picked at the head of a `mutateLoop` iteration is a member of
the default registry, and every iteration preserves the dictionary words and
the options. -/
theorem mutateLoop_state (fuel : Nat) :
    ∀ st data maxSize,
      DictsFootprint (mutateLoop DefaultMutators fuel st data maxSize).2.2 =
        DictsFootprint st ∧
      (mutateLoop DefaultMutators fuel st data maxSize).2.2.onlyASCII =
        st.onlyASCII := by
  induction fuel with
  | zero => exact fun st data maxSize => ⟨rfl, rfl⟩
  | succ n ih =>
    intro st data maxSize
    unfold mutateLoop
    rcases h1 : st.rng.next DefaultMutators.length with ⟨mi, r1⟩
    simp only [h1]
    set M := DefaultMutators.getD mi ⟨"", fun st d _ => (0, d, st)⟩ with hM
    have hcore : PreservesCore M.fn := by
      have hlt := Rng.next_fst_lt st.rng DefaultMutators.length (by simp [DefaultMutators])
      rw [h1] at hlt
      exact all_default_core _ (getD_mem_of_lt _ _ _ hlt)
    rcases h2 : M.fn { st with rng := r1 } data maxSize with ⟨ns, d2, st2⟩
    obtain ⟨hf, _, ho, _, _⟩ := hcore { st with rng := r1 } data maxSize
    rw [h2] at hf ho
    simp only [h2]
    by_cases hns : ns = 0
    · simp only [if_neg (not_not_intro hns)]
      exact ⟨(ih st2 d2 maxSize).1.trans hf, (ih st2 d2 maxSize).2.trans ho⟩
    · simp only [if_pos hns]
      exact ⟨hf, ho⟩

theorem Mutate_footprint (st : MD) (data : List Nat) (maxSize : Nat) :
    DictsFootprint (Mutate st data maxSize).2.2 = DictsFootprint st ∧
    (Mutate st data maxSize).2.2.onlyASCII = st.onlyASCII := by
  unfold Mutate MutateImpl
  by_cases h0 : data.length = 0
  · rcases hg : genBytes maxSize st.rng with ⟨fresh, r1⟩
    simp only [if_pos h0, hg]
    exact ⟨by trivial, by trivial⟩
  · simp only [if_neg h0]
    exact mutateLoop_state 10 st data maxSize

/-- The retry loop either exhausts its fuel with every attempted mutator having
returned `0` — and then yields the original size and the unchanged buffer — or
stops at the first attempt whose mutator returns a nonzero size. -/
theorem mutateLoop_spec (fuel : Nat) :
    ∀ st data maxSize, 0 < data.length → data.length ≤ maxSize →
      (∃ st', mutateLoop DefaultMutators fuel st data maxSize =
          (data.length, data, st') ∧
        st'.currentMutatorSequence = st.currentMutatorSequence) ∨
      (∃ stPre m, m ∈ DefaultMutators ∧ (m.fn stPre data maxSize).1 ≠ 0 ∧
        mutateLoop DefaultMutators fuel st data maxSize =
          ((m.fn stPre data maxSize).1,
           (if st.onlyASCII then ToASCII (m.fn stPre data maxSize).2.1
            else (m.fn stPre data maxSize).2.1),
           { (m.fn stPre data maxSize).2.2 with
             currentMutatorSequence :=
               (m.fn stPre data maxSize).2.2.currentMutatorSequence ++ [m.name] })) := by
  induction fuel with
  | zero => exact fun st data maxSize _ _ => Or.inl ⟨st, rfl, rfl⟩
  | succ n ih =>
    intro st data maxSize h0 hle
    unfold mutateLoop
    rcases h1 : st.rng.next DefaultMutators.length with ⟨mi, r1⟩
    simp only [h1]
    set M := DefaultMutators.getD mi ⟨"", fun st d _ => (0, d, st)⟩ with hM
    have hmem : M ∈ DefaultMutators := by
      have hlt := Rng.next_fst_lt st.rng DefaultMutators.length (by simp [DefaultMutators])
      rw [h1] at hlt
      exact getD_mem_of_lt _ _ _ hlt
    have hcore := all_default_core M hmem
    rcases h2 : M.fn { st with rng := r1 } data maxSize with ⟨ns, d2, st2⟩
    obtain ⟨_, hs, ho, hzd, _⟩ := hcore { st with rng := r1 } data maxSize
    rw [h2] at hs ho hzd
    have hs2 : st2.currentMutatorSequence = st.currentMutatorSequence := hs
    have ho2 : st2.onlyASCII = st.onlyASCII := ho
    have hzd2 : ns = 0 → d2 = data := fun hz => hzd h0 hle hz
    simp only [h2]
    by_cases hns : ns = 0
    · have hd2 : d2 = data := hzd2 hns
      simp only [if_neg (not_not_intro hns), hd2]
      rcases ih st2 data maxSize h0 hle with ⟨st', heq, hseq⟩ | ⟨stPre, m, hm, hnz, heq⟩
      · exact Or.inl ⟨st', heq, hseq.trans hs2⟩
      · refine Or.inr ⟨stPre, m, hm, hnz, ?_⟩
        rw [heq, ho2]
    · refine Or.inr ⟨{ st with rng := r1 }, M, hmem, by rw [h2]; exact hns, ?_⟩
      rw [h2]
      simp only [if_pos hns, ho2]

/-- C1: every mutator of the default registry, on a buffer state with
`0 < Size ≤ MaxSize`, returns either `0` (non-applicability, not an error) or a
new size in `[1, MaxSize]`. -/
theorem C1_default_mutators_result_bounded
    (m : Mutator) (hm : m ∈ DefaultMutators) (st : MD) (data : List Nat)
    (maxSize : Nat) (h0 : 0 < data.length) (hle : data.length ≤ maxSize)
    (hnz : (m.fn st data maxSize).1 ≠ 0) :
    1 ≤ (m.fn st data maxSize).1 ∧ (m.fn st data maxSize).1 ≤ maxSize :=
  (all_default_core m hm st data maxSize).2.2.2.2 h0 hle hnz

/-- C1 witness: `EraseBytes` on a concrete two-byte buffer. -/
theorem C1_witness :
    1 ≤ (Mutate_EraseBytes (initMD (fun _ => 0) none false) [5, 6] 2).1 ∧
    (Mutate_EraseBytes (initMD (fun _ => 0) none false) [5, 6] 2).1 ≤ 2 :=
  C1_default_mutators_result_bounded ⟨"EraseBytes", Mutate_EraseBytes⟩
    (by simp [DefaultMutators]) (initMD (fun _ => 0) none false) [5, 6] 2
    (by decide) (by decide) (by decide)

/-- C8: for a non-empty input `Mutate` is exactly the fuel-10 retry loop; the
first attempt whose mutator returns a nonzero size ends the loop with that size
returned, the buffer ASCII-folded when configured and that mutator appended to
the current-mutator-sequence; if all attempts return `0`, `Mutate` returns the
original size with the buffer unchanged and the sequence untouched. -/
theorem C8_mutate_retry_loop (st : MD) (data : List Nat) (maxSize : Nat)
    (h0 : 0 < data.length) (hle : data.length ≤ maxSize) :
    Mutate st data maxSize = mutateLoop DefaultMutators 10 st data maxSize ∧
    ((∃ st', Mutate st data maxSize = (data.length, data, st') ∧
        st'.currentMutatorSequence = st.currentMutatorSequence) ∨
     (∃ stPre m, m ∈ DefaultMutators ∧ (m.fn stPre data maxSize).1 ≠ 0 ∧
        Mutate st data maxSize =
          ((m.fn stPre data maxSize).1,
           (if st.onlyASCII then ToASCII (m.fn stPre data maxSize).2.1
            else (m.fn stPre data maxSize).2.1),
           { (m.fn stPre data maxSize).2.2 with
             currentMutatorSequence :=
               (m.fn stPre data maxSize).2.2.currentMutatorSequence ++ [m.name] }))) := by
  have hne : data.length ≠ 0 := by omega
  have hML : Mutate st data maxSize = mutateLoop DefaultMutators 10 st data maxSize := by
    unfold Mutate MutateImpl
    simp only [if_neg hne]
  refine ⟨hML, ?_⟩
  rw [hML]
  exact mutateLoop_spec 10 st data maxSize h0 hle

/-- C8 witness: the loop characterization at a concrete one-byte buffer that is
already at capacity. -/
theorem C8_witness :
    Mutate (initMD (fun _ => 0) none false) [5] 1 =
      mutateLoop DefaultMutators 10 (initMD (fun _ => 0) none false) [5] 1 ∧
    ((∃ st', Mutate (initMD (fun _ => 0) none false) [5] 1 = ([5].length, [5], st') ∧
        st'.currentMutatorSequence =
          (initMD (fun _ => 0) none false).currentMutatorSequence) ∨
     (∃ stPre m, m ∈ DefaultMutators ∧ (m.fn stPre [5] 1).1 ≠ 0 ∧
        Mutate (initMD (fun _ => 0) none false) [5] 1 =
          ((m.fn stPre [5] 1).1,
           (if (initMD (fun _ => 0) none false).onlyASCII
            then ToASCII (m.fn stPre [5] 1).2.1 else (m.fn stPre [5] 1).2.1),
           { (m.fn stPre [5] 1).2.2 with
             currentMutatorSequence :=
               (m.fn stPre [5] 1).2.2.currentMutatorSequence ++ [m.name] }))) :=
  C8_mutate_retry_loop (initMD (fun _ => 0) none false) [5] 1 (by decide) (by decide)

theorem genBytes_length (n : Nat) (r : Rng) : (genBytes n r).1.length = n := by
  induction n generalizing r with
  | zero => rfl
  | succ k ih =>
    unfold genBytes
    rcases h1 : randCh r with ⟨c, r1⟩
    rcases h2 : genBytes k r1 with ⟨rest, r2⟩
    simp only [h1, h2]
    have hr := ih r1
    rw [h2] at hr
    simp [hr]

theorem ToASCII_length (l : List Nat) : (ToASCII l).length = l.length := by
  simp [ToASCII]

theorem ToASCII_mem_bounds (l : List Nat) : ∀ b ∈ ToASCII l, 32 ≤ b ∧ b ≤ 126 := by
  intro b hb
  simp only [ToASCII, List.mem_map] at hb
  obtain ⟨a, _, rfl⟩ := hb
  by_cases h : 32 ≤ a % 128 ∧ a % 128 ≤ 126
  · simp only [if_pos h]
    exact h
  · simp only [if_neg h]
    omega

/-- C6: on an empty input `Mutate` never fails: it fills all `maxCapacity`
bytes with freshly generated bytes and returns exactly `maxCapacity`; with
`OnlyASCII` set, every output byte lies in the printable ASCII range. -/
theorem C6_mutate_empty_input (st : MD) (maxSize : Nat) (_hm : 0 < maxSize) :
    (Mutate st [] maxSize).1 = maxSize ∧
    (Mutate st [] maxSize).2.1.length = maxSize ∧
    (Mutate st [] maxSize).2.1 =
      (if st.onlyASCII then ToASCII (genBytes maxSize st.rng).1
       else (genBytes maxSize st.rng).1) ∧
    (st.onlyASCII = true → ∀ b ∈ (Mutate st [] maxSize).2.1, 32 ≤ b ∧ b ≤ 126) := by
  unfold Mutate MutateImpl
  rcases hg : genBytes maxSize st.rng with ⟨fresh, r1⟩
  have hlen := genBytes_length maxSize st.rng
  rw [hg] at hlen
  simp only [List.length_nil, eq_self_iff_true, if_true, hg]
  by_cases ha : st.onlyASCII
  · simp only [ha, eq_self_iff_true, if_true]
    refine ⟨by trivial, ?_, by trivial, fun _ => ToASCII_mem_bounds fresh⟩
    rw [ToASCII_length]
    exact hlen
  · simp only [Bool.not_eq_true] at ha
    simp only [ha, Bool.false_eq_true, if_false]
    refine ⟨by trivial, hlen, by trivial, fun hcon => hcon.elim⟩

/-- C6 witness: an empty buffer with capacity 3 and `OnlyASCII` set. -/
theorem C6_witness :
    (Mutate (initMD (fun _ => 0) none true) [] 3).1 = 3 ∧
    (Mutate (initMD (fun _ => 0) none true) [] 3).2.1.length = 3 ∧
    (Mutate (initMD (fun _ => 0) none true) [] 3).2.1 =
      (if (initMD (fun _ => 0) none true).onlyASCII
       then ToASCII (genBytes 3 (initMD (fun _ => 0) none true).rng).1
       else (genBytes 3 (initMD (fun _ => 0) none true).rng).1) ∧
    ((initMD (fun _ => 0) none true).onlyASCII = true →
      ∀ b ∈ (Mutate (initMD (fun _ => 0) none true) [] 3).2.1, 32 ≤ b ∧ b ≤ 126) :=
  C6_mutate_empty_input (initMD (fun _ => 0) none true) 3 (by decide)

/-- C7: `EraseBytes` is non-applicable exactly on one-byte buffers; on a buffer
of size at least 2 it removes a contiguous run of `N ∈ [1, Size/2]` bytes whose
range lies inside the buffer, shifting the tail left, and returns
`Size - N ≥ 1`. -/
theorem C7_eraseBytes_spec (st : MD) (data : List Nat) (maxSize : Nat) :
    (data.length = 1 → Mutate_EraseBytes st data maxSize = (0, data, st)) ∧
    (2 ≤ data.length →
      ∃ N idx r', 1 ≤ N ∧ N ≤ data.length / 2 ∧ idx + N ≤ data.length ∧
        1 ≤ data.length - N ∧
        Mutate_EraseBytes st data maxSize =
          (data.length - N, data.take idx ++ data.drop (idx + N),
           { st with rng := r' })) := by
  constructor
  · intro h1
    unfold Mutate_EraseBytes
    simp [h1]
  · intro h2
    have hne : data.length ≠ 1 := by omega
    unfold Mutate_EraseBytes
    rcases h1 : st.rng.next (data.length / 2) with ⟨n0, r1⟩
    rcases h2' : r1.next (data.length - (n0 + 1) + 1) with ⟨idx, r2⟩
    have hlt := Rng.next_fst_lt st.rng (data.length / 2) (by omega)
    rw [h1] at hlt
    have hlt2 := Rng.next_fst_lt r1 (data.length - (n0 + 1) + 1) (by omega)
    rw [h2'] at hlt2
    refine ⟨n0 + 1, idx, r2, by omega, by omega, by omega, by omega, ?_⟩
    simp only [if_neg hne, h1, h2']

/-- C7 witness: erasing from a concrete two-byte buffer. -/
theorem C7_witness :
    ∃ N idx r', 1 ≤ N ∧ N ≤ [5, 6].length / 2 ∧ idx + N ≤ [5, 6].length ∧
      1 ≤ [5, 6].length - N ∧
      Mutate_EraseBytes (initMD (fun _ => 1) none false) [5, 6] 2 =
        ([5, 6].length - N, [5, 6].take idx ++ [5, 6].drop (idx + N),
         { initMD (fun _ => 1) none false with rng := r' }) :=
  (C7_eraseBytes_spec (initMD (fun _ => 1) none false) [5, 6] 2).2 (by decide)

/-- C3 counterexample: with `size = 1` and `maxCapacity = 4` there are exactly
3 bytes of headroom; the claim asserts the mutator succeeds there, but the
source guard `Size + kMinBytesToInsert >= MaxSize` makes it return `0`. -/
theorem C3_counterexample :
    (Mutate_InsertRepeatedBytes (initMD (fun _ => 0) none false) [0] 4).1 = 0 :=
  rfl

/-- C3 amended: `InsertRepeatedBytes` returns `0` exactly when the headroom
`maxCapacity - size` is at most 3 (in particular it fails with exactly 3 bytes
of headroom); with headroom at least 4 it inserts a run of `N` identical bytes,
`3 ≤ N ≤ min(128, maxCapacity - size)`, and returns `size + N`. -/
theorem C3_insertRepeatedBytes_spec (st : MD) (data : List Nat) (maxSize : Nat) :
    (maxSize ≤ data.length + 3 →
      Mutate_InsertRepeatedBytes st data maxSize = (0, data, st)) ∧
    (data.length + 3 < maxSize →
      ∃ N b idx r', 3 ≤ N ∧ N ≤ min (maxSize - data.length) 128 ∧
        idx ≤ data.length ∧
        Mutate_InsertRepeatedBytes st data maxSize =
          (data.length + N, data.take idx ++ List.replicate N b ++ data.drop idx,
           { st with rng := r' })) := by
  constructor
  · intro h
    unfold Mutate_InsertRepeatedBytes
    simp [h]
  · intro h
    have hne : ¬(maxSize ≤ data.length + 3) := by omega
    unfold Mutate_InsertRepeatedBytes
    rcases h1 : st.rng.next (min (maxSize - data.length) 128 - 3 + 1) with ⟨n0, r1⟩
    rcases h2 : r1.next (data.length + 1) with ⟨idx, r2⟩
    rcases h3 : r2.nextBool with ⟨b1, r3⟩
    have hlt := Rng.next_fst_lt st.rng (min (maxSize - data.length) 128 - 3 + 1)
      (by omega)
    rw [h1] at hlt
    have hlt2 := Rng.next_fst_lt r1 (data.length + 1) (by omega)
    rw [h2] at hlt2
    rcases b1 with _ | _
    · rcases h4 : r3.nextBool with ⟨b2, r4⟩
      refine ⟨n0 + 3, (if b2 then 0 else 255), idx, r4, by omega, by omega,
        by omega, ?_⟩
      simp only [if_neg hne, h1, h2, h3, h4, Bool.false_eq_true, if_false]
    · rcases h4 : r3.next 256 with ⟨byte, r4⟩
      refine ⟨n0 + 3, byte, idx, r4, by omega, by omega, by omega, ?_⟩
      simp only [if_neg hne, h1, h2, h3, h4, eq_self_iff_true, if_true]

/-- C3 witness: with 4 bytes of headroom the insertion succeeds. -/
theorem C3_witness :
    ∃ N b idx r', 3 ≤ N ∧ N ≤ min (5 - [0].length) 128 ∧ idx ≤ [0].length ∧
      Mutate_InsertRepeatedBytes (initMD (fun _ => 0) none false) [0] 5 =
        ([0].length + N, [0].take idx ++ List.replicate N b ++ [0].drop idx,
         { initMD (fun _ => 0) none false with rng := r' }) :=
  (C3_insertRepeatedBytes_spec (initMD (fun _ => 0) none false) [0] 5).2 (by decide)

/-- C9: on a non-empty dictionary, `AddWordFromDictionary` draws one entry `i`
and an insert/overwrite coin `bIns` (`Rand.RandBool`, hence with equal
probability); the insert branch returns `0` exactly when `Size + |W| >
MaxSize` and otherwise `Size + |W|`; the overwrite branch returns `0` exactly
when `|W| > Size` and otherwise `Size`; a failure leaves the dictionaries and
sequences untouched, and a success increments the use
counter of exactly the chosen entry by one and appends a reference to it to the
current-dictionary-entry-sequence. -/
theorem C9_addWordFromDictionary_spec (st : MD) (d : DictId) (data : List Nat)
    (maxSize : Nat) (hD : (dictOf st d).length ≠ 0) (_h0 : 0 < data.length) :
    ∃ i bIns r3, i < (dictOf st d).length ∧
      (bIns = true →
        (maxSize < data.length + ((dictOf st d).getD i default).word.length →
          AddWordFromDictionary st d data maxSize = (0, data, { st with rng := r3 })) ∧
        (data.length + ((dictOf st d).getD i default).word.length ≤ maxSize →
          ∃ idx r4, AddWordFromDictionary st d data maxSize =
            (data.length + ((dictOf st d).getD i default).word.length,
             data.take idx ++ ((dictOf st d).getD i default).word ++ data.drop idx,
             { setDict st d (modifyIdx (dictOf st d) i
                 fun e => { e with useCount := e.useCount + 1 }) with
               rng := r4,
               currentDictionaryEntrySequence :=
                 st.currentDictionaryEntrySequence ++ [⟨d, i⟩] }))) ∧
      (bIns = false →
        (data.length < ((dictOf st d).getD i default).word.length →
          AddWordFromDictionary st d data maxSize = (0, data, { st with rng := r3 })) ∧
        (((dictOf st d).getD i default).word.length ≤ data.length →
          ∃ idx r4, AddWordFromDictionary st d data maxSize =
            (data.length,
             data.take idx ++ ((dictOf st d).getD i default).word ++
               data.drop (idx + ((dictOf st d).getD i default).word.length),
             { setDict st d (modifyIdx (dictOf st d) i
                 fun e => { e with useCount := e.useCount + 1 }) with
               rng := r4,
               currentDictionaryEntrySequence :=
                 st.currentDictionaryEntrySequence ++ [⟨d, i⟩] }))) := by
  unfold AddWordFromDictionary
  rcases h1 : st.rng.next (dictOf st d).length with ⟨i, r1⟩
  have hi : i < (dictOf st d).length := by
    have hlt := Rng.next_fst_lt st.rng (dictOf st d).length
      (Nat.pos_of_ne_zero hD)
    rw [h1] at hlt
    exact hlt
  simp only [if_neg hD, h1]
  rcases hph : ((dictOf st d).getD i default).positionHint with _ | hp
  · rcases hbi : r1.nextBool with ⟨bIns, r3⟩
    refine ⟨i, bIns, r3, hi, ?_, ?_⟩
    · rintro rfl
      constructor
      · intro hcap
        simp only [hph, hbi, eq_self_iff_true, if_true, if_pos hcap]
      · intro hcap
        rcases h4 : r3.next (data.length + 1) with ⟨idx, r4⟩
        refine ⟨idx, r4, ?_⟩
        simp only [hph, hbi, eq_self_iff_true, if_true, Bool.false_eq_true,
          if_false, if_neg (by omega : ¬maxSize < data.length +
            ((dictOf st d).getD i default).word.length), h4]
    · rintro rfl
      constructor
      · intro hcap
        simp only [hph, hbi, Bool.false_eq_true, if_false, if_pos hcap]
      · intro hcap
        rcases h4 : r3.next (data.length -
          ((dictOf st d).getD i default).word.length) with ⟨idx, r4⟩
        refine ⟨idx, r4, ?_⟩
        simp only [hph, hbi, Bool.false_eq_true, if_false,
          if_neg (by omega : ¬data.length <
            ((dictOf st d).getD i default).word.length), h4]
  · by_cases hcnd : hp + ((dictOf st d).getD i default).word.length < data.length
    · rcases hbu : r1.nextBool with ⟨u, r2b⟩
      rcases hbi : r2b.nextBool with ⟨bIns, r3⟩
      refine ⟨i, bIns, r3, hi, ?_, ?_⟩
      · rintro rfl
        constructor
        · intro hcap
          simp only [hph, if_pos hcnd, hbu, hbi, eq_self_iff_true, if_true,
            if_pos hcap]
        · intro hcap
          rcases u with _ | _
          · rcases h4 : r3.next (data.length + 1) with ⟨idx, r4⟩
            refine ⟨idx, r4, ?_⟩
            simp only [hph, if_pos hcnd, hbu, hbi, eq_self_iff_true, if_true,
              Bool.false_eq_true, if_false, if_neg (by omega : ¬maxSize <
                data.length + ((dictOf st d).getD i default).word.length), h4]
          · refine ⟨hp, r3, ?_⟩
            simp only [hph, if_pos hcnd, hbu, hbi, eq_self_iff_true, if_true,
              if_neg (by omega : ¬maxSize < data.length +
                ((dictOf st d).getD i default).word.length)]
      · rintro rfl
        constructor
        · intro hcap
          simp only [hph, if_pos hcnd, hbu, hbi, Bool.false_eq_true, if_false,
            if_pos hcap]
        · intro hcap
          rcases u with _ | _
          · rcases h4 : r3.next (data.length -
              ((dictOf st d).getD i default).word.length) with ⟨idx, r4⟩
            refine ⟨idx, r4, ?_⟩
            simp only [hph, if_pos hcnd, hbu, hbi, Bool.false_eq_true, if_false,
              if_neg (by omega : ¬data.length <
                ((dictOf st d).getD i default).word.length), h4]
          · refine ⟨hp, r3, ?_⟩
            simp only [hph, if_pos hcnd, hbu, hbi, eq_self_iff_true, if_true,
              Bool.false_eq_true, if_false, if_neg (by omega : ¬data.length <
                ((dictOf st d).getD i default).word.length)]
    · rcases hbi : r1.nextBool with ⟨bIns, r3⟩
      refine ⟨i, bIns, r3, hi, ?_, ?_⟩
      · rintro rfl
        constructor
        · intro hcap
          simp only [hph, if_neg hcnd, hbi, eq_self_iff_true, if_true,
            if_pos hcap]
        · intro hcap
          rcases h4 : r3.next (data.length + 1) with ⟨idx, r4⟩
          refine ⟨idx, r4, ?_⟩
          simp only [hph, if_neg hcnd, hbi, eq_self_iff_true, if_true,
            Bool.false_eq_true, if_false, if_neg (by omega : ¬maxSize <
              data.length + ((dictOf st d).getD i default).word.length), h4]
      · rintro rfl
        constructor
        · intro hcap
          simp only [hph, if_neg hcnd, hbi, Bool.false_eq_true, if_false,
            if_pos hcap]
        · intro hcap
          rcases h4 : r3.next (data.length -
            ((dictOf st d).getD i default).word.length) with ⟨idx, r4⟩
          refine ⟨idx, r4, ?_⟩
          simp only [hph, if_neg hcnd, hbi, Bool.false_eq_true, if_false,
            if_neg (by omega : ¬data.length <
              ((dictOf st d).getD i default).word.length), h4]

/-- C9 witness: a 3-byte word against a 10-byte buffer with capacity 12. -/
theorem C9_witness :
    ∃ i bIns r3, i < (dictOf exDictState .manual).length ∧
      (bIns = true →
        (12 < exBuf.length + ((dictOf exDictState .manual).getD i default).word.length →
          AddWordFromDictionary exDictState .manual exBuf 12 =
            (0, exBuf, { exDictState with rng := r3 })) ∧
        (exBuf.length + ((dictOf exDictState .manual).getD i default).word.length ≤ 12 →
          ∃ idx r4, AddWordFromDictionary exDictState .manual exBuf 12 =
            (exBuf.length + ((dictOf exDictState .manual).getD i default).word.length,
             exBuf.take idx ++ ((dictOf exDictState .manual).getD i default).word ++
               exBuf.drop idx,
             { setDict exDictState .manual (modifyIdx (dictOf exDictState .manual) i
                 fun e => { e with useCount := e.useCount + 1 }) with
               rng := r4,
               currentDictionaryEntrySequence :=
                 exDictState.currentDictionaryEntrySequence ++ [⟨.manual, i⟩] }))) ∧
      (bIns = false →
        (exBuf.length < ((dictOf exDictState .manual).getD i default).word.length →
          AddWordFromDictionary exDictState .manual exBuf 12 =
            (0, exBuf, { exDictState with rng := r3 })) ∧
        (((dictOf exDictState .manual).getD i default).word.length ≤ exBuf.length →
          ∃ idx r4, AddWordFromDictionary exDictState .manual exBuf 12 =
            (exBuf.length,
             exBuf.take idx ++ ((dictOf exDictState .manual).getD i default).word ++
               exBuf.drop (idx + ((dictOf exDictState .manual).getD i default).word.length),
             { setDict exDictState .manual (modifyIdx (dictOf exDictState .manual) i
                 fun e => { e with useCount := e.useCount + 1 }) with
               rng := r4,
               currentDictionaryEntrySequence :=
                 exDictState.currentDictionaryEntrySequence ++ [⟨.manual, i⟩] }))) :=
  C9_addWordFromDictionary_spec exDictState .manual exBuf 12 (by decide) (by decide)

/-! ## The success-recording loop and the reachable-state invariants -/
theorem containsWord_iff (l : List DictionaryEntry) (w : List Nat) :
    ContainsWord l w = true ↔ w ∈ l.map (·.word) := by
  simp [ContainsWord, List.any_eq_true, List.mem_map]

theorem incSuccess_pers_words (st : MD) (r : EntryRef) :
    (incSuccess st r).persistentAutoDictionary.map (·.word) =
      st.persistentAutoDictionary.map (·.word) := by
  unfold incSuccess
  rcases hr : r.dict <;>
    simp [setDict, dictOf,
      modifyIdx_map _ r.idx
        (fun e : DictionaryEntry => { e with successCount := e.successCount + 1 })
        (fun x : DictionaryEntry => x.word) (fun a => rfl)]

theorem incSuccess_temp_len (st : MD) (r : EntryRef) :
    (incSuccess st r).tempAutoDictionary.length = st.tempAutoDictionary.length := by
  unfold incSuccess
  rcases hr : r.dict <;> simp [setDict, dictOf, modifyIdx_length]

theorem recordStep_nodup (st : MD) (r : EntryRef)
    (h : (st.persistentAutoDictionary.map (·.word)).Nodup) :
    ((recordStep st r).persistentAutoDictionary.map (·.word)).Nodup := by
  unfold recordStep
  have hw := incSuccess_pers_words st r
  by_cases hc : ContainsWord (incSuccess st r).persistentAutoDictionary
      (entryAt (incSuccess st r) r).word = true
  · simp only [hc, if_true]
    rw [hw]
    exact h
  · have hc2 : ContainsWord (incSuccess st r).persistentAutoDictionary
        (entryAt (incSuccess st r) r).word = false := by
      simpa using hc
    simp only [hc2, Bool.false_eq_true, if_false, List.map_append, List.map_cons,
      List.map_nil]
    rw [hw]
    rw [List.nodup_append]
    refine ⟨h, List.nodup_singleton _, ?_⟩
    intro a ha hmem
    simp only [List.mem_singleton] at hmem
    subst hmem
    have hmem2 : (entryAt (incSuccess st r) r).word ∈
        (incSuccess st r).persistentAutoDictionary.map (·.word) := by
      rw [hw]; exact ha
    exact hc ((containsWord_iff _ _).mpr hmem2)

theorem recordStep_temp_len (st : MD) (r : EntryRef) :
    (recordStep st r).tempAutoDictionary.length = st.tempAutoDictionary.length := by
  unfold recordStep
  have ht := incSuccess_temp_len st r
  by_cases hc : ContainsWord (incSuccess st r).persistentAutoDictionary
      (entryAt (incSuccess st r) r).word = true
  · simp only [hc, if_true]
    exact ht
  · have hc2 : ContainsWord (incSuccess st r).persistentAutoDictionary
        (entryAt (incSuccess st r) r).word = false := by
      simpa using hc
    simp only [hc2, Bool.false_eq_true, if_false]
    exact ht

theorem record_foldl_nodup (l : List EntryRef) :
    ∀ st : MD, (st.persistentAutoDictionary.map (·.word)).Nodup →
      ((l.foldl recordStep st).persistentAutoDictionary.map (·.word)).Nodup := by
  induction l with
  | nil => exact fun st h => h
  | cons r rs ih => exact fun st h => ih _ (recordStep_nodup st r h)

theorem record_foldl_temp_len (l : List EntryRef) :
    ∀ st : MD, (l.foldl recordStep st).tempAutoDictionary.length =
      st.tempAutoDictionary.length := by
  induction l with
  | nil => exact fun st => rfl
  | cons r rs ih => exact fun st => (ih _).trans (recordStep_temp_len st r)

/-- The two state invariants maintained by every dispatcher operation: the
persistent-automatic dictionary never holds two entries with the same word,
and the temporary-automatic dictionary never exceeds `kMaxAutoDictSize`. -/
theorem reachable_invariant (st : MD) (h : Reachable st) :
    (st.persistentAutoDictionary.map (·.word)).Nodup ∧
    st.tempAutoDictionary.length ≤ kMaxAutoDictSize := by
  induction h with
  | init stream corpus ascii =>
    exact ⟨List.nodup_nil, by simp [initMD]⟩
  | mutate data maxSize h ih =>
    obtain ⟨hf, _⟩ := Mutate_footprint _ data maxSize
    have hpers := congrArg (fun t :
      List (List Nat) × List (List Nat) × List (List Nat) => t.2.2) hf
    have htemp := congrArg (fun t :
      List (List Nat) × List (List Nat) × List (List Nat) => t.2.1.length) hf
    simp only [DictsFootprint, List.length_map] at hpers htemp
    exact ⟨by rw [hpers]; exact ih.1, by rw [htemp]; exact ih.2⟩
  | start h ih => exact ih
  | record h ih =>
    refine ⟨record_foldl_nodup _ _ ih.1, ?_⟩
    unfold RecordSuccessfulMutationSequence
    rw [record_foldl_temp_len]
    exact ih.2
  | addManual w h ih => exact ih
  | addAuto de h ih =>
    rename_i stA
    unfold AddWordToAutoDictionary
    by_cases hcap : kMaxAutoDictSize ≤ stA.tempAutoDictionary.length
    · simp only [if_pos hcap]
      exact ih
    · simp only [if_neg hcap]
      refine ⟨ih.1, ?_⟩
      simp only [List.length_append, List.length_singleton]
      omega
  | clearAuto h ih => exact ⟨ih.1, by simp [ClearAutoDictionary]⟩

/-- C5 counterexample: a reachable state in which the word `[1]` sits in both
the manual dictionary and the persistent-automatic dictionary.
`RecordSuccessfulMutationSequence` deduplicates only against the persistent
entries themselves, not against the manual dictionary, so using a manual word
in a successful chain copies it into the persistent dictionary. -/
theorem C5_counterexample :
    ∃ st, Reachable st ∧ ∃ w,
      ContainsWord st.persistentAutoDictionary w = true ∧
      ContainsWord st.manualDictionary w = true := by
  refine ⟨RecordSuccessfulMutationSequence
      ((Mutate (AddWordToManualDictionary (initMD c5Stream none false) [1]) [7] 2).2.2),
    Reachable.record (Reachable.mutate [7] 2
      (Reachable.addManual [1] (Reachable.init c5Stream none false))),
    [1], ?_, ?_⟩ <;> decide

/-- C5 amended: in every reachable state the persistent-automatic dictionary
holds no two entries with the same word, but it may share words with the
manual dictionary — the manual words are filtered out only when the
recommended dictionary is assembled for printing. -/
theorem C5_persistent_dict_invariant (st : MD) (h : Reachable st) :
    (st.persistentAutoDictionary.map (·.word)).Nodup ∧
    ∀ e ∈ RecommendedDictionary st, ContainsWord st.manualDictionary e.word = false := by
  refine ⟨(reachable_invariant st h).1, ?_⟩
  intro e he
  unfold RecommendedDictionary at he
  have hmem := List.of_mem_filter he
  simpa using hmem

/-- C5 witness: the invariant at the freshly constructed dispatcher. -/
theorem C5_witness :
    ((initMD (fun _ => 0) none false).persistentAutoDictionary.map (·.word)).Nodup ∧
    ∀ e ∈ RecommendedDictionary (initMD (fun _ => 0) none false),
      ContainsWord (initMD (fun _ => 0) none false).manualDictionary e.word = false :=
  C5_persistent_dict_invariant (initMD (fun _ => 0) none false)
    (Reachable.init (fun _ => 0) none false)

/-- C10: `AddWordToAutoDictionary` appends the entry exactly when the
temporary-automatic dictionary currently holds fewer than `2^14` entries and
is a silent no-op otherwise; and every reachable dispatcher state keeps that
dictionary within `2^14` entries. -/
theorem C10_tempAutoDict_bounded :
    (∀ st de, st.tempAutoDictionary.length < kMaxAutoDictSize →
      (AddWordToAutoDictionary st de).tempAutoDictionary =
        st.tempAutoDictionary ++ [de]) ∧
    (∀ st de, kMaxAutoDictSize ≤ st.tempAutoDictionary.length →
      AddWordToAutoDictionary st de = st) ∧
    (∀ st, Reachable st → st.tempAutoDictionary.length ≤ kMaxAutoDictSize) := by
  refine ⟨?_, ?_, ?_⟩
  · intro st de hlt
    unfold AddWordToAutoDictionary
    simp [Nat.not_le.mpr hlt]
  · intro st de hge
    unfold AddWordToAutoDictionary
    simp [hge]
  · intro st h
    exact (reachable_invariant st h).2

/-- C10 witness: the bound at the freshly constructed dispatcher. -/
theorem C10_witness :
    (initMD (fun _ => 0) none false).tempAutoDictionary.length ≤ kMaxAutoDictSize :=
  C10_tempAutoDict_bounded.2.2 (initMD (fun _ => 0) none false)
    (Reachable.init (fun _ => 0) none false)

/-- C2 counterexample: after recording a chain that used entries `{A, B, A}`,
the success counter of entry A is 2 — it is incremented once per use — where
the claim asserts it is incremented exactly once. -/
theorem C2_counterexample :
    ((RecordSuccessfulMutationSequence (c2State [1] [2] 0 0)).tempAutoDictionary.map
        (·.successCount) = [2, 1]) ∧
    ((RecordSuccessfulMutationSequence (c2State [1] [2] 0 0)).persistentAutoDictionary.map
        (·.word) = [[1], [2]]) := by
  decide

/-- C2 amended: for a chain with entry sequence `{A, B, A}` and distinct words,
the persistent dictionary gains exactly one entry per distinct word, each
appended with a fresh success counter of 1, while the success counter of each
used entry grows once per use: A gains 2 and B gains 1. -/
theorem C2_record_per_use (wA wB : List Nat) (cA cB : Nat) (hne : wA ≠ wB) :
    ((RecordSuccessfulMutationSequence (c2State wA wB cA cB)).tempAutoDictionary.map
        (·.successCount) = [cA + 2, cB + 1]) ∧
    ((RecordSuccessfulMutationSequence (c2State wA wB cA cB)).persistentAutoDictionary =
      [⟨wA, none, 0, 1⟩, ⟨wB, none, 0, 1⟩]) := by
  unfold RecordSuccessfulMutationSequence c2State
  simp [recordStep, incSuccess, entryAt, dictOf, setDict, modifyIdx, ContainsWord,
    initMD, hne, Ne.symm hne]

/-- C2 witness: the amended behaviour at concrete words and counters. -/
theorem C2_witness :
    ((RecordSuccessfulMutationSequence (c2State [1] [2] 5 7)).tempAutoDictionary.map
        (·.successCount) = [5 + 2, 7 + 1]) ∧
    ((RecordSuccessfulMutationSequence (c2State [1] [2] 5 7)).persistentAutoDictionary =
      [⟨[1], none, 0, 1⟩, ⟨[2], none, 0, 1⟩]) :=
  C2_record_per_use [1] [2] 5 7 (by decide)

/-- C4, evidence of the code bug: the stream drives `Mutate_CrossOver` into
strategy (b) and then (c).  Strategy (b) always fails because the scratch
buffer is pre-resized to `MaxSize`, so `InsertPartOf` sees
`ToSize ≥ MaxToSize`; strategy (c) then overwrites part of the stale scratch
bytes — never a copy of the current buffer — and the returned unit
`[2, 9, 9]` contains the byte `9`, which occurs in neither the current buffer
`[1]` nor the chosen corpus entry `[2]`. -/
theorem C4_crossover_stale_scratch :
    (InsertPartOf ⟨c4Stream, 2⟩ [2] (resizeList c4State.mutateInPlaceHere 3) 3).1 = 0 ∧
    (Mutate_CrossOver c4State [1] 3).1 = 3 ∧
    (Mutate_CrossOver c4State [1] 3).2.1 = [2, 9, 9] ∧
    9 ∈ (Mutate_CrossOver c4State [1] 3).2.1 ∧
    9 ∉ [1] ∧ 9 ∉ ([2] : List Nat) := by
  refine ⟨rfl, rfl, rfl, by decide, by decide, by decide⟩

end FuzzerMutate
